import Mathlib

/-!
Verification of the `CountryService` reconciliation service
(`src/services/countries.service.ts`): a CRUD/upsert service over a
persisted `Country` store with soft deletion cascading to dependent
`Visit` records, synchronized from an external country listing.

The persistence layer is the Prisma client, an external collaborator.
It is modelled here as a pure keyed record store over lists, with the
Prisma client's documented error codes: `P2002` for a unique-constraint
violation, `P2025` for "record to update/delete not found". (`P2010` is
the code for a failed raw query; `update`/`delete` on a missing record
raise `P2025`, not `P2010`.) Service errors and raw store errors travel
in a single `ServiceError` type; a raw Prisma error that the service
lets through unchanged stays a `PrismaKnownRequestError`.
-/

/-- A persisted `Country` row: system id, `name` and `abbreviation`
(both unique), and the soft-delete flag (default `false`). The
provider-specific descriptive fields are irrelevant to every claim and
are omitted. -/
structure Country where
  id : Nat
  name : String
  abbreviation : String
  deleted : Bool
deriving Repr, DecidableEq

/-- A dependent `Visit` row referencing its parent `Country` by
`countryId`, with its own soft-delete flag. -/
structure Visit where
  id : Nat
  countryId : Nat
  deleted : Bool
deriving Repr, DecidableEq

/-- Modelled from the spec: `CreateCountryDto` (src/dtos/createCountry.dto
is not under src/) — the shape required for local creation/upsert. -/
structure CreateCountryDto where
  name : String
  abbreviation : String
deriving Repr, DecidableEq

/-- Modelled from the spec: `UpdateCountryDto` (src/dtos/updateCountry.dto
is not under src/) — a partial field update; absent fields are untouched. -/
structure UpdateCountryDto where
  name : Option String
  abbreviation : Option String
deriving Repr, DecidableEq

/-- Modelled from the spec: `CountryOutputDto` (src/dtos/countryService.dto
is not under src/) — the sanitized public output shape, stripping the
internal soft-delete flag. -/
structure CountryOutputDto where
  id : Nat
  name : String
  abbreviation : String
deriving Repr, DecidableEq

/-- A Prisma-style `data` object for a Country update: optional new
values per column; `none` leaves the column unchanged. -/
structure CountryPatch where
  name : Option String
  abbreviation : Option String
  deleted : Option Bool
deriving Repr, DecidableEq

/-- The errors surfacing from the service: the two domain errors it
raises itself (`NotFoundError`, `AlreadyExistsError` from
src/utils/handleError) and a raw Prisma known-request error carrying its
error code. -/
inductive ServiceError where
  | NotFoundError (msg : String)
  | AlreadyExistsError (msg : String)
  | PrismaKnownRequestError (code : String)
deriving Repr, DecidableEq

/-- The persistence store handle: the Country table, the Visit table and
the next id the store will assign. -/
structure Store where
  countries : List Country
  visits : List Visit
  nextId : Nat
deriving Repr, DecidableEq

/-- Apply a Prisma `data` object to a Country row. -/
def applyPatch (c : Country) (p : CountryPatch) : Country :=
  { id := c.id
    name := p.name.getD c.name
    abbreviation := p.abbreviation.getD c.abbreviation
    deleted := p.deleted.getD c.deleted }

/-- Does any row other than `selfId` hold the name `nm` or the
abbreviation `ab`? (The store's unique constraints on `name` and
`abbreviation`.) -/
def conflictsWith (l : List Country) (selfId : Nat) (nm ab : String) : Bool :=
  l.any (fun d => d.id != selfId && (d.name == nm || d.abbreviation == ab))

/-- Store primitive `country.findFirst({ where: { id, deleted: false } })`. -/
def Store.countryFindFirstLive (s : Store) (id : Nat) : Option Country :=
  s.countries.find? (fun c => c.id == id && c.deleted == false)

/-- Store primitive `country.findMany({ where: { deleted: false } })`. -/
def Store.countryFindMany (s : Store) : List Country :=
  s.countries.filter (fun c => c.deleted == false)

/-- Store primitive `country.update({ where: { id }, data })`: raises
`P2025` when no row has that id, `P2002` when the patched row would
violate the unique constraint on `name` or `abbreviation`; otherwise
returns the updated row and the new store. -/
def Store.countryUpdate (s : Store) (id : Nat) (p : CountryPatch) :
    Except ServiceError (Country × Store) :=
  match s.countries.find? (fun c => c.id == id) with
  | none => .error (.PrismaKnownRequestError "P2025")
  | some c =>
    let c2 := applyPatch c p
    if conflictsWith s.countries c.id c2.name c2.abbreviation then
      .error (.PrismaKnownRequestError "P2002")
    else
      .ok (c2, { s with countries := s.countries.map (fun d => if d.id == c.id then c2 else d) })

/-- Store primitive `country.delete({ where: { id } })`: raises `P2025`
when no row has that id; otherwise removes the row and returns its last
state. -/
def Store.countryDelete (s : Store) (id : Nat) :
    Except ServiceError (Country × Store) :=
  match s.countries.find? (fun c => c.id == id) with
  | none => .error (.PrismaKnownRequestError "P2025")
  | some c =>
    .ok (c, { s with countries := s.countries.eraseP (fun d => d.id == c.id) })

/-- Store primitive `country.create({ data })`: raises `P2002` when a
row already holds the name or the abbreviation; otherwise inserts a
fresh row with the next id and `deleted = false`. -/
def Store.countryCreate (s : Store) (d : CreateCountryDto) :
    Except ServiceError (Country × Store) :=
  if s.countries.any (fun c => c.name == d.name || c.abbreviation == d.abbreviation) then
    .error (.PrismaKnownRequestError "P2002")
  else
    let c : Country := ⟨s.nextId, d.name, d.abbreviation, false⟩
    .ok (c, ⟨s.countries ++ [c], s.visits, s.nextId + 1⟩)

/-- Store primitive `country.upsert({ where: { abbreviation }, create, update })`:
updates the row holding the abbreviation when one exists, creates one
otherwise (with `create`'s semantics, unique constraints included). -/
def Store.countryUpsert (s : Store) (abbr : String) (cr : CreateCountryDto)
    (up : CountryPatch) : Except ServiceError (Country × Store) :=
  match s.countries.find? (fun c => c.abbreviation == abbr) with
  | some c =>
    let c2 := applyPatch c up
    if conflictsWith s.countries c.id c2.name c2.abbreviation then
      .error (.PrismaKnownRequestError "P2002")
    else
      .ok (c2, { s with countries := s.countries.map (fun d => if d.id == c.id then c2 else d) })
  | none => s.countryCreate cr

/-- Store primitive `visit.updateMany({ where: { countryId }, data: { deleted: true } })`:
flags every Visit referencing `cid`; never fails, matching zero rows is
a success. -/
def Store.visitUpdateManyDeleted (s : Store) (cid : Nat) : Store :=
  { s with visits := s.visits.map (fun v => if v.countryId == cid then { v with deleted := true } else v) }

/-- Modelled from the spec: `sanitizeCountry` (src/utils/sanitizeData is
not under src/) — total map from a persisted Country to the public
output shape, stripping the internal soft-delete flag. -/
def sanitizeCountry (c : Country) : CountryOutputDto :=
  ⟨c.id, c.name, c.abbreviation⟩

/-- Modelled from the spec: the raw external record shape returned by
the External Source Adapter (arbitrary provider field names; only the
fields surviving sanitization are carried). -/
structure RawCountry where
  name : String
  abbreviation : String
deriving Repr, DecidableEq

/-- Modelled from the spec: `sanitizeCountryAPI` (src/utils/sanitizeData
is not under src/) — total map from a raw external record to the
creation/upsert shape. -/
def sanitizeCountryAPI (r : RawCountry) : CreateCountryDto :=
  ⟨r.name, r.abbreviation⟩

/-- The Prisma `data` object built from an `UpdateCountryDto`: the DTO
carries no `deleted` field, so a service-level update never touches the
soft-delete flag. -/
def UpdateCountryDto.toPatch (d : UpdateCountryDto) : CountryPatch :=
  ⟨d.name, d.abbreviation, none⟩

/-- The Prisma `data` object built from a `CreateCountryDto` when it is
used as the `update` argument of `upsert`: both columns are set, the
soft-delete flag is not. -/
def CreateCountryDto.toPatch (d : CreateCountryDto) : CountryPatch :=
  ⟨some d.name, some d.abbreviation, none⟩

/-- Service operation `CountryService.getCountry`: findFirst filtered to non-deleted, and
`NotFoundError` when that yields nothing. -/
def getCountry (s : Store) (id : Nat) : Except ServiceError CountryOutputDto :=
  match s.countryFindFirstLive id with
  | none => .error (.NotFoundError s!"Country with id #{id} not found")
  | some c => .ok (sanitizeCountry c)

/-- Service operation `CountryService.getCountries`: findMany filtered to non-deleted, and
`NotFoundError` when the result is empty. -/
def getCountries (s : Store) : Except ServiceError (List CountryOutputDto) :=
  let cs := s.countryFindMany
  if cs.length == 0 then .error (.NotFoundError "Countries not found")
  else .ok (cs.map sanitizeCountry)

/-- The catch-block of `CountryService.updateCountry`: a Prisma
known-request error with code `P2010` becomes `NotFoundError`; every
other error is rethrown unchanged. -/
def mapUpdateError (id : Nat) (e : ServiceError) : ServiceError :=
  match e with
  | .PrismaKnownRequestError code =>
    if code == "P2010" then .NotFoundError s!"Country with id \"#{id}\" not found"
    else .PrismaKnownRequestError code
  | e => e

/-- Service operation `CountryService.updateCountry`: store update by id with the partial
data, errors filtered through the catch-block. -/
def updateCountry (s : Store) (id : Nat) (d : UpdateCountryDto) :
    Except ServiceError (CountryOutputDto × Store) :=
  match s.countryUpdate id d.toPatch with
  | .ok (c, s2) => .ok (sanitizeCountry c, s2)
  | .error e => .error (mapUpdateError id e)

/-- Service operation `CountryService.deleteCountry`: hard mode is a bare store delete;
soft mode is a store update setting `deleted = true` followed by the
Visit cascade, returning the updated Country. No catch-block in either
mode. -/
def deleteCountry (s : Store) (id : Nat) (hard : Bool) :
    Except ServiceError (CountryOutputDto × Store) :=
  if hard then
    match s.countryDelete id with
    | .ok (c, s2) => .ok (sanitizeCountry c, s2)
    | .error e => .error e
  else
    match s.countryUpdate id ⟨none, none, some true⟩ with
    | .ok (c, s2) => .ok (sanitizeCountry c, s2.visitUpdateManyDeleted id)
    | .error e => .error e

/-- Service operation `CountryService.upsertCountry`: store upsert keyed by the record's
abbreviation, creating from the record and updating with the record. No
catch-block. -/
def upsertCountry (s : Store) (d : CreateCountryDto) :
    Except ServiceError (CountryOutputDto × Store) :=
  match s.countryUpsert d.abbreviation d d.toPatch with
  | .ok (c, s2) => .ok (sanitizeCountry c, s2)
  | .error e => .error e

/-- The catch-block of `CountryService.createCountry`: a Prisma
known-request error with code `P2002` becomes `AlreadyExistsError`;
every other error is rethrown unchanged. -/
def mapCreateError (d : CreateCountryDto) (e : ServiceError) : ServiceError :=
  match e with
  | .PrismaKnownRequestError code =>
    if code == "P2002" then
      .AlreadyExistsError s!"Country with name \"{d.name}\" or abbreviation \"{d.abbreviation}\" already exists"
    else .PrismaKnownRequestError code
  | e => e

/-- Service operation `CountryService.createCountry`: store create, errors filtered
through the catch-block. -/
def createCountry (s : Store) (d : CreateCountryDto) :
    Except ServiceError (CountryOutputDto × Store) :=
  match s.countryCreate d with
  | .ok (c, s2) => .ok (sanitizeCountry c, s2)
  | .error e => .error (mapCreateError d e)

/-- The per-record upserts issued by `upsertCountriesFromAPI`: each
upsert is a single store call, so the batch reaches the store in list
order; the first failure aborts the batch with no result list. -/
def upsertAll (s : Store) : List CreateCountryDto →
    Except ServiceError (List CountryOutputDto × Store)
  | [] => .ok ([], s)
  | d :: ds =>
    match upsertCountry s d with
    | .error e => .error e
    | .ok (o, s2) =>
      match upsertAll s2 ds with
      | .error e => .error e
      | .ok (os, s3) => .ok (o :: os, s3)

/-- Service operation `CountryService.upsertCountriesFromAPI` (syncFromExternal),
parametrized by the raw listing the External Source Adapter returned:
sanitize every record, then upsert each one. -/
def upsertCountriesFromAPI (s : Store) (raw : List RawCountry) :
    Except ServiceError (List CountryOutputDto × Store) :=
  upsertAll s (raw.map sanitizeCountryAPI)

/-- Service operation `CountryService.getExternalCountries`, parametrized by the raw
listing: the sanitized external records in the order received. -/
def getExternalCountries (raw : List RawCountry) : List CreateCountryDto :=
  raw.map sanitizeCountryAPI

/-- Store well-formedness: ids are unique, the unique constraints on
`name` and `abbreviation` hold, and every id is below the next assigned
id. Every store reachable through the store primitives from an empty
store satisfies this. -/
def Store.wf (s : Store) : Prop :=
  (s.countries.map Country.id).Nodup ∧
  (s.countries.map Country.name).Nodup ∧
  (s.countries.map Country.abbreviation).Nodup ∧
  ∀ c ∈ s.countries, c.id < s.nextId

instance (s : Store) : Decidable s.wf := by
  unfold Store.wf; infer_instance

/-! ### List helper lemmas -/

/-- Computing `find?` over a decomposed list whose prefix fails the predicate. -/
theorem list_find_middle {α : Type} (p : α → Bool) {l1 : List α} (l2 : List α) {c : α}
    (h1 : ∀ d ∈ l1, p d = false) (hc : p c = true) :
    (l1 ++ c :: l2).find? p = some c := by
  induction l1 with
  | nil => simp [List.find?_cons, hc]
  | cons a t ih =>
    have ha : p a = false := h1 a (List.mem_cons_self a t)
    simp only [List.cons_append, List.find?_cons, ha]
    exact ih (fun d hd => h1 d (List.mem_cons_of_mem a hd))

/-- Computing `eraseP` over a decomposed list whose prefix fails the predicate
removes exactly the middle element. -/
theorem list_eraseP_middle {α : Type} (p : α → Bool) {l1 : List α} (l2 : List α) {c : α}
    (h1 : ∀ d ∈ l1, p d = false) (hc : p c = true) :
    (l1 ++ c :: l2).eraseP p = l1 ++ l2 := by
  induction l1 with
  | nil => simp [List.eraseP_cons, hc]
  | cons a t ih =>
    have ha : p a = false := h1 a (List.mem_cons_self a t)
    simp only [List.cons_append, List.eraseP_cons, ha, cond_false]
    rw [ih (fun d hd => h1 d (List.mem_cons_of_mem a hd))]

/-- Computing `filter` over a decomposed list keeping only the middle element. -/
theorem list_filter_middle {α : Type} (p : α → Bool) {l1 l2 : List α} {c : α}
    (h1 : ∀ d ∈ l1, p d = false) (h2 : ∀ d ∈ l2, p d = false) (hc : p c = true) :
    (l1 ++ c :: l2).filter p = [c] := by
  have e1 : l1.filter p = [] := List.filter_eq_nil_iff.mpr (fun a ha => by simp [h1 a ha])
  have e2 : l2.filter p = [] := List.filter_eq_nil_iff.mpr (fun a ha => by simp [h2 a ha])
  rw [List.filter_append, List.filter_cons, e1, e2, hc]
  simp

/-- A map that fixes every element of a list is the identity there. -/
theorem list_map_id_of {α : Type} (g : α → α) (l : List α) (h : ∀ a ∈ l, g a = a) :
    l.map g = l := by
  induction l with
  | nil => rfl
  | cons a t ih =>
    simp only [List.map_cons]
    rw [h a (List.mem_cons_self a t), ih (fun d hd => h d (List.mem_cons_of_mem a hd))]

/-- Pointwise replacement by a predicate holding only at the middle
element rewrites exactly that element. -/
theorem list_map_replace_middle {α : Type} (q : α → Bool) (c2 : α) {l1 l2 : List α} {c : α}
    (h1 : ∀ d ∈ l1, q d = false) (h2 : ∀ d ∈ l2, q d = false) (hc : q c = true) :
    (l1 ++ c :: l2).map (fun d => if q d then c2 else d) = l1 ++ c2 :: l2 := by
  have e1 : l1.map (fun d => if q d then c2 else d) = l1 :=
    list_map_id_of _ l1 (fun a ha => by simp [h1 a ha])
  have e2 : l2.map (fun d => if q d then c2 else d) = l2 :=
    list_map_id_of _ l2 (fun a ha => by simp [h2 a ha])
  rw [List.map_append, List.map_cons, e1, e2, hc]
  simp

/-- In a list whose image under `f` has no duplicates, no element off
the middle position shares its `f`-value with the middle element. -/
theorem nodup_map_middle {α β : Type} (f : α → β) {l1 l2 : List α} {c : α}
    (h : ((l1 ++ c :: l2).map f).Nodup) {d : α} (hd : d ∈ l1 ++ l2) : f d ≠ f c := by
  rw [List.map_append, List.map_cons, List.nodup_middle, List.nodup_cons] at h
  intro he
  apply h.1
  rw [← List.map_append, ← he]
  exact List.mem_map_of_mem f hd

/-! ### Store well-formedness lemmas -/

/-- A member of a well-formed store splits the Country table into a
prefix and suffix whose rows disagree with it on every keyed column. -/
theorem wf_split (s : Store) (c : Country) (hwf : s.wf) (hc : c ∈ s.countries) :
    ∃ l1 l2, s.countries = l1 ++ c :: l2 ∧
      ∀ d ∈ l1 ++ l2, d.id ≠ c.id ∧ d.name ≠ c.name ∧ d.abbreviation ≠ c.abbreviation := by
  obtain ⟨l1, l2, he⟩ := List.append_of_mem hc
  obtain ⟨h1, h2, h3, -⟩ := hwf
  rw [he] at h1 h2 h3
  exact ⟨l1, l2, he, fun d hd =>
    ⟨nodup_map_middle Country.id h1 hd, nodup_map_middle Country.name h2 hd,
      nodup_map_middle Country.abbreviation h3 hd⟩⟩

/-- The unique-constraint check passes when every other row disagrees on
both keyed columns. -/
theorem conflictsWith_false_of_split {l1 l2 : List Country} (c : Country) {nm ab : String}
    (hnm : ∀ d ∈ l1 ++ l2, d.name ≠ nm) (hab : ∀ d ∈ l1 ++ l2, d.abbreviation ≠ ab) :
    conflictsWith (l1 ++ c :: l2) c.id nm ab = false := by
  rw [conflictsWith, List.any_eq_false]
  intro x hx
  rcases List.mem_append.mp hx with h | h
  · have h1 := hnm x (List.mem_append_left _ h)
    have h2 := hab x (List.mem_append_left _ h)
    simp [h1, h2]
  · rcases List.mem_cons.mp h with rfl | h
    · simp
    · have h1 := hnm x (List.mem_append_right _ h)
      have h2 := hab x (List.mem_append_right _ h)
      simp [h1, h2]

/-- Replacing the middle row by one with the same id, fresh keyed
columns and an id within bounds preserves well-formedness. -/
theorem wf_middle_replace {l1 l2 : List Country} {c c2 : Country} {v : List Visit} {n : Nat}
    (hwf : Store.wf ⟨l1 ++ c :: l2, v, n⟩) (hid : c2.id = c.id) (hlt : c2.id < n)
    (hename : ∀ d ∈ l1 ++ l2, d.name ≠ c2.name)
    (heab : ∀ d ∈ l1 ++ l2, d.abbreviation ≠ c2.abbreviation) :
    Store.wf ⟨l1 ++ c2 :: l2, v, n⟩ := by
  obtain ⟨h1, h2, h3, h4⟩ := hwf
  refine ⟨?_, ?_, ?_, ?_⟩
  · simp only [List.map_append, List.map_cons] at h1 ⊢
    rw [hid]
    exact h1
  · simp only [List.map_append, List.map_cons, List.nodup_middle, List.nodup_cons] at h2 ⊢
    refine ⟨fun hmem => ?_, h2.2⟩
    rw [← List.map_append] at hmem
    obtain ⟨d, hd, he⟩ := List.mem_map.mp hmem
    exact hename d hd he
  · simp only [List.map_append, List.map_cons, List.nodup_middle, List.nodup_cons] at h3 ⊢
    refine ⟨fun hmem => ?_, h3.2⟩
    rw [← List.map_append] at hmem
    obtain ⟨d, hd, he⟩ := List.mem_map.mp hmem
    exact heab d hd he
  · intro d hd
    rcases List.mem_append.mp hd with h | h
    · exact h4 d (List.mem_append_left _ h)
    · rcases List.mem_cons.mp h with rfl | h
      · exact hlt
      · exact h4 d (List.mem_append_right _ (List.mem_cons_of_mem _ h))

/-- Appending a fresh row carrying the next id and fresh keyed columns
preserves well-formedness. -/
theorem wf_append {s : Store} {d : CreateCountryDto} (hwf : s.wf)
    (hnm : ∀ c ∈ s.countries, c.name ≠ d.name)
    (hab : ∀ c ∈ s.countries, c.abbreviation ≠ d.abbreviation) :
    Store.wf ⟨s.countries ++ [⟨s.nextId, d.name, d.abbreviation, false⟩], s.visits, s.nextId + 1⟩ := by
  obtain ⟨h1, h2, h3, h4⟩ := hwf
  refine ⟨?_, ?_, ?_, ?_⟩
  · simp only [List.map_append, List.map_cons, List.map_nil, List.nodup_middle, List.nodup_cons]
    refine ⟨fun hmem => ?_, by simpa using h1⟩
    rw [List.append_nil] at hmem
    obtain ⟨x, hx, he⟩ := List.mem_map.mp hmem
    exact Nat.ne_of_lt (h4 x hx) he
  · simp only [List.map_append, List.map_cons, List.map_nil, List.nodup_middle, List.nodup_cons]
    refine ⟨fun hmem => ?_, by simpa using h2⟩
    rw [List.append_nil] at hmem
    obtain ⟨x, hx, he⟩ := List.mem_map.mp hmem
    exact hnm x hx he
  · simp only [List.map_append, List.map_cons, List.map_nil, List.nodup_middle, List.nodup_cons]
    refine ⟨fun hmem => ?_, by simpa using h3⟩
    rw [List.append_nil] at hmem
    obtain ⟨x, hx, he⟩ := List.mem_map.mp hmem
    exact hab x hx he
  · intro x hx
    rcases List.mem_append.mp hx with h | h
    · exact Nat.lt_trans (h4 x h) (Nat.lt_succ_self _)
    · rcases List.mem_cons.mp h with rfl | h
      · exact Nat.lt_succ_self _
      · exact absurd h (List.not_mem_nil x)

/-! ### Upsert characterization lemmas -/

/-- When a row holding the record's abbreviation exists and no other row
holds the record's name, `upsertCountry` overwrites exactly that row's
`name` and `abbreviation`, keeping its id and soft-delete flag. -/
theorem upsertCountry_found_ok {s : Store} {R : CreateCountryDto} {c : Country}
    {l1 l2 : List Country}
    (hsplit : s.countries = l1 ++ c :: l2)
    (hne : ∀ d ∈ l1 ++ l2, d.id ≠ c.id ∧ d.name ≠ c.name ∧ d.abbreviation ≠ c.abbreviation)
    (hab : c.abbreviation = R.abbreviation)
    (hnm : ∀ d ∈ l1 ++ l2, d.name ≠ R.name) :
    upsertCountry s R = .ok (sanitizeCountry ⟨c.id, R.name, R.abbreviation, c.deleted⟩,
      ⟨l1 ++ ⟨c.id, R.name, R.abbreviation, c.deleted⟩ :: l2, s.visits, s.nextId⟩) := by
  have hfind : s.countries.find? (fun d => d.abbreviation == R.abbreviation) = some c := by
    rw [hsplit]
    apply list_find_middle
    · intro d hd
      rw [beq_eq_false_iff_ne]
      exact hab ▸ (hne d (List.mem_append_left _ hd)).2.2
    · rw [hab]
      exact beq_self_eq_true _
  have happ : applyPatch c R.toPatch = (⟨c.id, R.name, R.abbreviation, c.deleted⟩ : Country) := rfl
  have hconf : conflictsWith s.countries c.id R.name R.abbreviation = false := by
    rw [hsplit]
    exact conflictsWith_false_of_split c hnm (fun d hd => hab ▸ (hne d hd).2.2)
  have hmap : s.countries.map
      (fun d => if d.id == c.id then (⟨c.id, R.name, R.abbreviation, c.deleted⟩ : Country) else d)
      = l1 ++ (⟨c.id, R.name, R.abbreviation, c.deleted⟩ : Country) :: l2 := by
    rw [hsplit]
    apply list_map_replace_middle
    · intro d hd
      rw [beq_eq_false_iff_ne]
      exact (hne d (List.mem_append_left _ hd)).1
    · intro d hd
      rw [beq_eq_false_iff_ne]
      exact (hne d (List.mem_append_right _ hd)).1
    · exact beq_self_eq_true _
  simp only [upsertCountry, Store.countryUpsert, hfind, happ, hconf, hmap]
  rfl

/-- When no row holds the record's abbreviation or name,
`upsertCountry` creates a fresh row from the record. -/
theorem upsertCountry_new_ok {s : Store} {R : CreateCountryDto}
    (hab : ∀ d ∈ s.countries, d.abbreviation ≠ R.abbreviation)
    (hnm : ∀ d ∈ s.countries, d.name ≠ R.name) :
    upsertCountry s R = .ok (sanitizeCountry ⟨s.nextId, R.name, R.abbreviation, false⟩,
      ⟨s.countries ++ [⟨s.nextId, R.name, R.abbreviation, false⟩], s.visits, s.nextId + 1⟩) := by
  have hfind : s.countries.find? (fun d => d.abbreviation == R.abbreviation) = none :=
    List.find?_eq_none.mpr (fun d hd => by simp [hab d hd])
  have hany : (s.countries.any (fun c => c.name == R.name || c.abbreviation == R.abbreviation))
      = false := by
    rw [List.any_eq_false]
    intro x hx
    simp [hnm x hx, hab x hx]
  simp only [upsertCountry, Store.countryUpsert, hfind, Store.countryCreate, hany]
  rfl

/-- Computing `find?` by abbreviation over a split whose prefix disagrees. -/
theorem find_by_abbreviation {l1 l2 : List Country} {c : Country} {ab : String}
    (hne : ∀ d ∈ l1, d.abbreviation ≠ ab) (hc : c.abbreviation = ab) :
    (l1 ++ c :: l2).find? (fun d => d.abbreviation == ab) = some c :=
  list_find_middle _ _ (fun d hd => by rw [beq_eq_false_iff_ne]; exact hne d hd)
    (by rw [hc]; exact beq_self_eq_true _)

/-- Inversion: a successful upsert that matched the row `c` by
abbreviation produced exactly the overwrite of `c`'s keyed columns, and
no other row held the incoming name. -/
theorem upsertCountry_found_inv {s : Store} {R : CreateCountryDto} {c : Country}
    {l1 l2 : List Country} {o : CountryOutputDto} {s2 : Store}
    (hsplit : s.countries = l1 ++ c :: l2)
    (hne : ∀ d ∈ l1 ++ l2, d.id ≠ c.id ∧ d.name ≠ c.name ∧ d.abbreviation ≠ c.abbreviation)
    (hab : c.abbreviation = R.abbreviation)
    (h : upsertCountry s R = .ok (o, s2)) :
    o = sanitizeCountry ⟨c.id, R.name, R.abbreviation, c.deleted⟩ ∧
    s2 = ⟨l1 ++ (⟨c.id, R.name, R.abbreviation, c.deleted⟩ : Country) :: l2, s.visits, s.nextId⟩ ∧
    ∀ d ∈ l1 ++ l2, d.name ≠ R.name := by
  have hfind : s.countries.find? (fun d => d.abbreviation == R.abbreviation) = some c := by
    rw [hsplit]
    exact find_by_abbreviation
      (fun d hd => hab ▸ (hne d (List.mem_append_left _ hd)).2.2) hab
  have happ : applyPatch c R.toPatch = (⟨c.id, R.name, R.abbreviation, c.deleted⟩ : Country) := rfl
  simp only [upsertCountry, Store.countryUpsert, hfind, happ] at h
  cases hconf : conflictsWith s.countries c.id R.name R.abbreviation with
  | true =>
    rw [hconf] at h
    simp at h
  | false =>
    rw [hconf] at h
    have hnm : ∀ d ∈ l1 ++ l2, d.name ≠ R.name := by
      intro d hd he
      simp only [conflictsWith] at hconf
      rw [List.any_eq_false] at hconf
      have hdmem : d ∈ s.countries := by
        rw [hsplit]
        rcases List.mem_append.mp hd with h1 | h1
        · exact List.mem_append_left _ h1
        · exact List.mem_append_right _ (List.mem_cons_of_mem _ h1)
      have hx := hconf d hdmem
      simp [bne_iff_ne, (hne d hd).1, he] at hx
    have hmap : s.countries.map
        (fun d => if d.id == c.id then (⟨c.id, R.name, R.abbreviation, c.deleted⟩ : Country) else d)
        = l1 ++ (⟨c.id, R.name, R.abbreviation, c.deleted⟩ : Country) :: l2 := by
      rw [hsplit]
      apply list_map_replace_middle
      · intro d hd
        rw [beq_eq_false_iff_ne]
        exact (hne d (List.mem_append_left _ hd)).1
      · intro d hd
        rw [beq_eq_false_iff_ne]
        exact (hne d (List.mem_append_right _ hd)).1
      · exact beq_self_eq_true _
    simp only [Bool.false_eq_true, if_false, hmap, Except.ok.injEq, Prod.mk.injEq] at h
    exact ⟨h.1.symm, h.2.symm, hnm⟩

/-- Upserting a record whose row is already stored verbatim (same name
and abbreviation) succeeds and leaves the store unchanged. -/
theorem upsertCountry_self {s : Store} {c : Country} {R : CreateCountryDto}
    (hwf : s.wf) (hc : c ∈ s.countries)
    (hn : c.name = R.name) (ha : c.abbreviation = R.abbreviation) :
    upsertCountry s R = .ok (sanitizeCountry c, s) := by
  obtain ⟨l1, l2, hsplit, hne⟩ := wf_split s c hwf hc
  have hnm : ∀ d ∈ l1 ++ l2, d.name ≠ R.name := fun d hd => hn ▸ (hne d hd).2.1
  have heq := upsertCountry_found_ok hsplit hne ha hnm
  have hcc : (⟨c.id, R.name, R.abbreviation, c.deleted⟩ : Country) = c := by
    cases c
    simp_all
  rw [hcc] at heq
  have hs : (⟨l1 ++ c :: l2, s.visits, s.nextId⟩ : Store) = s := by rw [← hsplit]
  rw [hs] at heq
  exact heq

/-- Postcondition of a successful upsert on a well-formed store:
well-formedness is preserved, Visits are untouched, the output row holds
the record's keyed columns uniquely, and the table grew exactly when no
row held the abbreviation. -/
theorem upsertCountry_ok_post {s : Store} {R : CreateCountryDto}
    {o : CountryOutputDto} {s2 : Store}
    (hwf : s.wf) (h : upsertCountry s R = .ok (o, s2)) :
    s2.wf ∧ s2.visits = s.visits ∧
    (∃ l1 l2 c, s2.countries = l1 ++ c :: l2 ∧ o = sanitizeCountry c ∧
      c.name = R.name ∧ c.abbreviation = R.abbreviation ∧
      ∀ d ∈ l1 ++ l2, d.id ≠ c.id ∧ d.name ≠ c.name ∧ d.abbreviation ≠ c.abbreviation) ∧
    ((∃ d ∈ s.countries, d.abbreviation = R.abbreviation) →
      s2.countries.length = s.countries.length) ∧
    ((∀ d ∈ s.countries, d.abbreviation ≠ R.abbreviation) →
      s2.countries.length = s.countries.length + 1) := by
  cases hfind : s.countries.find? (fun d => d.abbreviation == R.abbreviation) with
  | some c =>
    have hc : c ∈ s.countries := List.mem_of_find?_eq_some hfind
    have habc : c.abbreviation = R.abbreviation := by
      have := List.find?_some hfind
      simpa using this
    obtain ⟨l1, l2, hsplit, hne⟩ := wf_split s c hwf hc
    obtain ⟨ho, hs2, hnm⟩ := upsertCountry_found_inv hsplit hne habc h
    have hwfmid : Store.wf ⟨l1 ++ c :: l2, s.visits, s.nextId⟩ := by
      rw [← hsplit]
      exact hwf
    refine ⟨?_, ?_, ?_, ?_, ?_⟩
    · rw [hs2]
      exact wf_middle_replace hwfmid rfl (hwf.2.2.2 c hc) hnm
        (fun d hd => habc ▸ (hne d hd).2.2)
    · rw [hs2]
    · exact ⟨l1, l2, ⟨c.id, R.name, R.abbreviation, c.deleted⟩, by rw [hs2], ho, rfl, rfl,
        fun d hd => ⟨(hne d hd).1, hnm d hd, habc ▸ (hne d hd).2.2⟩⟩
    · intro _
      rw [hs2, hsplit]
      simp
    · intro hall
      exact absurd habc (hall c hc)
  | none =>
    have hab2 : ∀ d ∈ s.countries, d.abbreviation ≠ R.abbreviation := by
      intro d hd
      have := List.find?_eq_none.mp hfind d hd
      simpa using this
    cases hany : (s.countries.any (fun c => c.name == R.name || c.abbreviation == R.abbreviation)) with
    | true =>
      simp [upsertCountry, Store.countryUpsert, hfind, Store.countryCreate, hany] at h
    | false =>
      have hnm : ∀ d ∈ s.countries, d.name ≠ R.name := by
        intro d hd
        have hx := (List.any_eq_false.mp hany) d hd
        simp at hx
        exact hx.1
      have heq := upsertCountry_new_ok hab2 hnm
      rw [heq] at h
      simp only [Except.ok.injEq, Prod.mk.injEq] at h
      obtain ⟨ho, hs2⟩ := h
      refine ⟨?_, ?_, ?_, ?_, ?_⟩
      · rw [← hs2]
        exact wf_append hwf hnm hab2
      · rw [← hs2]
      · refine ⟨s.countries, [], ⟨s.nextId, R.name, R.abbreviation, false⟩, by rw [← hs2], ho.symm,
          rfl, rfl, ?_⟩
        intro d hd
        rw [List.append_nil] at hd
        exact ⟨Nat.ne_of_lt (hwf.2.2.2 d hd), hnm d hd, hab2 d hd⟩
      · rintro ⟨d, hd, hdab⟩
        exact absurd hdab (hab2 d hd)
      · intro _
        rw [← hs2]
        simp

/-- Postcondition of a successful upsert batch on a well-formed store:
one output per input and a well-formed final store. -/
theorem upsertAll_ok_post (ds : List CreateCountryDto) :
    ∀ (s : Store) (os : List CountryOutputDto) (s2 : Store), s.wf →
      upsertAll s ds = .ok (os, s2) → os.length = ds.length ∧ s2.wf := by
  induction ds with
  | nil =>
    intro s os s2 hwf h
    simp only [upsertAll, Except.ok.injEq, Prod.mk.injEq] at h
    obtain ⟨rfl, rfl⟩ := h
    exact ⟨rfl, hwf⟩
  | cons d ds ih =>
    intro s os s2 hwf h
    simp only [upsertAll] at h
    split at h
    · simp at h
    · rename_i o sMid heq
      split at h
      · simp at h
      · rename_i os3 s3 heq2
        simp only [Except.ok.injEq, Prod.mk.injEq] at h
        obtain ⟨ho, hs⟩ := h
        have hwfMid := (upsertCountry_ok_post hwf heq).1
        have hind := ih sMid os3 s3 hwfMid heq2
        constructor
        · rw [← ho]
          simp [hind.1]
        · rw [← hs]
          exact hind.2

/-! ### Claim theorems -/

/-- C2: Upsert is keyed solely by the natural key `abbreviation`: a
successful `upsert(R)` updated the row holding `R.abbreviation` when
one existed (table length unchanged) and created one otherwise (length
grew by one); afterwards exactly one stored Country holds that
abbreviation, and running `upsert(R)` again returns the same output and
leaves the store unchanged (the second call updates, never
duplicates). -/
theorem upsertCountry_idempotent_by_key (s : Store) (R : CreateCountryDto) (hwf : s.wf)
    (o1 : CountryOutputDto) (s1 : Store) (h1 : upsertCountry s R = .ok (o1, s1)) :
    upsertCountry s1 R = .ok (o1, s1) ∧
    (s1.countries.filter (fun c => c.abbreviation == R.abbreviation)).length = 1 ∧
    ((∃ c ∈ s.countries, c.abbreviation = R.abbreviation) →
      s1.countries.length = s.countries.length) ∧
    ((∀ c ∈ s.countries, c.abbreviation ≠ R.abbreviation) →
      s1.countries.length = s.countries.length + 1) := by
  obtain ⟨hwf1, -, ⟨l1, l2, c, hsplit, ho, hn, ha, hne⟩, hlen1, hlen2⟩ :=
    upsertCountry_ok_post hwf h1
  refine ⟨?_, ?_, hlen1, hlen2⟩
  · have hc : c ∈ s1.countries := by
      rw [hsplit]
      exact List.mem_append_right _ (List.mem_cons_self _ _)
    rw [ho]
    exact upsertCountry_self hwf1 hc hn ha
  · rw [hsplit]
    have hf : (l1 ++ c :: l2).filter (fun d => d.abbreviation == R.abbreviation) = [c] :=
      list_filter_middle _
        (fun d hd => by
          rw [beq_eq_false_iff_ne]
          exact ha ▸ (hne d (List.mem_append_left _ hd)).2.2)
        (fun d hd => by
          rw [beq_eq_false_iff_ne]
          exact ha ▸ (hne d (List.mem_append_right _ hd)).2.2)
        (by rw [ha]; exact beq_self_eq_true _)
    rw [hf]
    rfl

/-- C2 witness: on the concrete store already holding the row created by
a first `upsert` of the record, the second `upsert` is the identity. -/
theorem upsertCountry_idempotent_by_key_witness :
    upsertCountry ⟨[⟨0, "Spain", "ES", false⟩], [], 1⟩ ⟨"Spain", "ES"⟩ =
      .ok (⟨0, "Spain", "ES"⟩, ⟨[⟨0, "Spain", "ES", false⟩], [], 1⟩) :=
  (upsertCountry_idempotent_by_key ⟨[], [], 0⟩ ⟨"Spain", "ES"⟩ (by decide)
    ⟨0, "Spain", "ES"⟩ ⟨[⟨0, "Spain", "ES", false⟩], [], 1⟩ rfl).1

/-- C3: `upsertCountriesFromAPI` sanitizes every raw record and routes
the batch through `upsertAll` (so the first failing upsert fails the
whole call with no partial result list); on success over a well-formed
store it returns exactly one output per external input, and the final
Country table holds no duplicate abbreviation — also when the listing
repeats an abbreviation. -/
theorem upsertCountriesFromAPI_cardinality (s : Store) (raw : List RawCountry) (hwf : s.wf)
    (os : List CountryOutputDto) (s2 : Store)
    (h : upsertCountriesFromAPI s raw = .ok (os, s2)) :
    upsertCountriesFromAPI s raw = upsertAll s (raw.map sanitizeCountryAPI) ∧
    os.length = raw.length ∧
    (s2.countries.map Country.abbreviation).Nodup := by
  have hpost := upsertAll_ok_post (raw.map sanitizeCountryAPI) s os s2 hwf h
  exact ⟨rfl, by rw [hpost.1, List.length_map], hpost.2.2.2.1⟩

/-- C3 witness: a listing repeating the abbreviation "ES" yields two
outputs and a single stored row holding "ES" (last write wins). -/
theorem upsertCountriesFromAPI_cardinality_witness :
    upsertCountriesFromAPI ⟨[], [], 0⟩ [⟨"Spain", "ES"⟩, ⟨"Espana", "ES"⟩] =
      upsertAll ⟨[], [], 0⟩ ([⟨"Spain", "ES"⟩, ⟨"Espana", "ES"⟩].map sanitizeCountryAPI) ∧
    ([⟨0, "Spain", "ES"⟩, ⟨0, "Espana", "ES"⟩] : List CountryOutputDto).length =
      ([⟨"Spain", "ES"⟩, ⟨"Espana", "ES"⟩] : List RawCountry).length ∧
    ((⟨[⟨0, "Espana", "ES", false⟩], [], 1⟩ : Store).countries.map Country.abbreviation).Nodup :=
  upsertCountriesFromAPI_cardinality ⟨[], [], 0⟩ [⟨"Spain", "ES"⟩, ⟨"Espana", "ES"⟩] (by decide)
    [⟨0, "Spain", "ES"⟩, ⟨0, "Espana", "ES"⟩] ⟨[⟨0, "Espana", "ES", false⟩], [], 1⟩ rfl

/-- C5: when `upsert` matches a soft-deleted row by abbreviation, a
successful call overwrites only the record's fields (`name`,
`abbreviation`): the row keeps its id and stays soft-deleted
(`deleted = true`), and it is the unique row with that id. -/
theorem upsertCountry_keeps_soft_deleted (s : Store) (R : CreateCountryDto) (c : Country)
    (hwf : s.wf) (hc : c ∈ s.countries) (hab : c.abbreviation = R.abbreviation)
    (hdel : c.deleted = true) (o : CountryOutputDto) (s2 : Store)
    (h : upsertCountry s R = .ok (o, s2)) :
    (⟨c.id, R.name, R.abbreviation, true⟩ : Country) ∈ s2.countries ∧
    s2.countries.length = s.countries.length ∧
    ∀ d ∈ s2.countries, d.id = c.id → d = ⟨c.id, R.name, R.abbreviation, true⟩ := by
  obtain ⟨l1, l2, hsplit, hne⟩ := wf_split s c hwf hc
  obtain ⟨-, hs2, -⟩ := upsertCountry_found_inv hsplit hne hab h
  rw [hdel] at hs2
  refine ⟨?_, ?_, ?_⟩
  · rw [hs2]
    exact List.mem_append_right _ (List.mem_cons_self _ _)
  · rw [hs2, hsplit]
    simp
  · intro d hd hid
    rw [hs2] at hd
    rcases List.mem_append.mp hd with h1 | h1
    · exact absurd hid (hne d (List.mem_append_left _ h1)).1
    · rcases List.mem_cons.mp h1 with rfl | h1
      · rfl
      · exact absurd hid (hne d (List.mem_append_right _ h1)).1

/-- C5 witness: upserting `{name Spain, abbreviation ES}` onto a store
whose only row holds "ES" and is soft-deleted keeps the row
soft-deleted with its id. -/
theorem upsertCountry_keeps_soft_deleted_witness :
    (⟨5, "Spain", "ES", true⟩ : Country) ∈
      (⟨[⟨5, "Spain", "ES", true⟩], [], 6⟩ : Store).countries ∧
    (⟨[⟨5, "Spain", "ES", true⟩], [], 6⟩ : Store).countries.length =
      (⟨[⟨5, "Old", "ES", true⟩], [], 6⟩ : Store).countries.length ∧
    ∀ d ∈ (⟨[⟨5, "Spain", "ES", true⟩], [], 6⟩ : Store).countries, d.id = 5 →
      d = ⟨5, "Spain", "ES", true⟩ :=
  upsertCountry_keeps_soft_deleted ⟨[⟨5, "Old", "ES", true⟩], [], 6⟩ ⟨"Spain", "ES"⟩
    ⟨5, "Old", "ES", true⟩ (by decide) (by decide) rfl rfl
    ⟨5, "Spain", "ES"⟩ ⟨[⟨5, "Spain", "ES", true⟩], [], 6⟩ rfl

/-- C4: soft delete of a stored Country flags it deleted, cascades the
flag to every Visit referencing its id, returns the updated Country
state, and a subsequent `getCountries` excludes it. -/
theorem deleteCountry_soft_cascade (s : Store) (c : Country) (hwf : s.wf)
    (hc : c ∈ s.countries) :
    ∃ s2, deleteCountry s c.id false = .ok (sanitizeCountry { c with deleted := true }, s2) ∧
      { c with deleted := true } ∈ s2.countries ∧
      (∀ v ∈ s2.visits, v.countryId = c.id → v.deleted = true) ∧
      ∀ os, getCountries s2 = .ok os → ∀ o ∈ os, o.id ≠ c.id := by
  obtain ⟨l1, l2, hsplit, hne⟩ := wf_split s c hwf hc
  have hfind : s.countries.find? (fun d => d.id == c.id) = some c := by
    rw [hsplit]
    apply list_find_middle
    · intro d hd
      rw [beq_eq_false_iff_ne]
      exact (hne d (List.mem_append_left _ hd)).1
    · exact beq_self_eq_true _
  have happ : applyPatch c ⟨none, none, some true⟩ = { c with deleted := true } := rfl
  have hconf : conflictsWith s.countries c.id ({ c with deleted := true } : Country).name
      ({ c with deleted := true } : Country).abbreviation = false := by
    rw [hsplit]
    exact conflictsWith_false_of_split c (fun d hd => (hne d hd).2.1) (fun d hd => (hne d hd).2.2)
  have hmap : s.countries.map
      (fun d => if d.id == c.id then ({ c with deleted := true } : Country) else d)
      = l1 ++ ({ c with deleted := true } : Country) :: l2 := by
    rw [hsplit]
    apply list_map_replace_middle
    · intro d hd
      rw [beq_eq_false_iff_ne]
      exact (hne d (List.mem_append_left _ hd)).1
    · intro d hd
      rw [beq_eq_false_iff_ne]
      exact (hne d (List.mem_append_right _ hd)).1
    · exact beq_self_eq_true _
  refine ⟨⟨l1 ++ ({ c with deleted := true } : Country) :: l2,
    s.visits.map (fun v => if v.countryId == c.id then { v with deleted := true } else v),
    s.nextId⟩, ?_, ?_, ?_, ?_⟩
  · simp only [deleteCountry, Store.countryUpdate, hfind, happ, hconf,
      Store.visitUpdateManyDeleted, hmap]
    rfl
  · exact List.mem_append_right _ (List.mem_cons_self _ _)
  · intro v hv hvc
    obtain ⟨w, hw, rfl⟩ := List.mem_map.mp hv
    by_cases hwc : (w.countryId == c.id) = true
    · simp [hwc]
    · rw [Bool.not_eq_true] at hwc
      simp [hwc] at hvc
      exact absurd hvc (beq_eq_false_iff_ne.mp hwc)
  · intro os hos o ho2
    have hfilter : (l1 ++ ({ c with deleted := true } : Country) :: l2).filter
        (fun d => d.deleted == false)
        = l1.filter (fun d => d.deleted == false) ++ l2.filter (fun d => d.deleted == false) := by
      rw [List.filter_append, List.filter_cons]
      simp
    simp only [getCountries, Store.countryFindMany, hfilter] at hos
    split at hos
    · simp at hos
    · simp only [Except.ok.injEq] at hos
      rw [← hos] at ho2
      obtain ⟨d, hd, rfl⟩ := List.mem_map.mp ho2
      rcases List.mem_append.mp hd with h1 | h1
      · exact (hne d (List.mem_append_left _ (List.mem_of_mem_filter h1))).1
      · exact (hne d (List.mem_append_right _ (List.mem_of_mem_filter h1))).1

/-- C4 witness: soft-deleting the single stored Country flags it and its
two Visits deleted, and the listing then errors rather than showing it. -/
theorem deleteCountry_soft_cascade_witness :
    ∃ s2, deleteCountry ⟨[⟨1, "Spain", "ES", false⟩], [⟨1, 1, false⟩, ⟨2, 1, false⟩], 2⟩ 1 false =
        .ok (sanitizeCountry ⟨1, "Spain", "ES", true⟩, s2) ∧
      (⟨1, "Spain", "ES", true⟩ : Country) ∈ s2.countries ∧
      (∀ v ∈ s2.visits, v.countryId = 1 → v.deleted = true) ∧
      ∀ os, getCountries s2 = .ok os → ∀ o ∈ os, o.id ≠ 1 :=
  deleteCountry_soft_cascade ⟨[⟨1, "Spain", "ES", false⟩], [⟨1, 1, false⟩, ⟨2, 1, false⟩], 2⟩
    ⟨1, "Spain", "ES", false⟩ (by decide) (by decide)

/-- C6: hard delete of a stored Country physically removes exactly that
row, returns its last known state, and leaves the Visit table — every
Visit row, all fields — untouched: no cascade on hard delete. -/
theorem deleteCountry_hard_no_cascade (s : Store) (c : Country) (hwf : s.wf)
    (hc : c ∈ s.countries) :
    ∃ s2, deleteCountry s c.id true = .ok (sanitizeCountry c, s2) ∧
      s2.visits = s.visits ∧ c ∉ s2.countries ∧
      ∀ d : Country, d ∈ s2.countries ↔ (d ∈ s.countries ∧ d ≠ c) := by
  obtain ⟨l1, l2, hsplit, hne⟩ := wf_split s c hwf hc
  have hfind : s.countries.find? (fun d => d.id == c.id) = some c := by
    rw [hsplit]
    apply list_find_middle
    · intro d hd
      rw [beq_eq_false_iff_ne]
      exact (hne d (List.mem_append_left _ hd)).1
    · exact beq_self_eq_true _
  have herase : s.countries.eraseP (fun d => d.id == c.id) = l1 ++ l2 := by
    rw [hsplit]
    apply list_eraseP_middle
    · intro d hd
      rw [beq_eq_false_iff_ne]
      exact (hne d (List.mem_append_left _ hd)).1
    · exact beq_self_eq_true _
  refine ⟨⟨l1 ++ l2, s.visits, s.nextId⟩, ?_, rfl, ?_, ?_⟩
  · simp only [deleteCountry, Store.countryDelete, hfind, herase]
    rfl
  · intro hmem
    exact (hne c hmem).1 rfl
  · intro d
    constructor
    · intro hd
      refine ⟨?_, fun he => (hne d hd).1 (by rw [he])⟩
      rw [hsplit]
      rcases List.mem_append.mp hd with h1 | h1
      · exact List.mem_append_left _ h1
      · exact List.mem_append_right _ (List.mem_cons_of_mem _ h1)
    · rintro ⟨hd, hdc⟩
      rw [hsplit] at hd
      rcases List.mem_append.mp hd with h1 | h1
      · exact List.mem_append_left _ h1
      · rcases List.mem_cons.mp h1 with rfl | h1
        · exact absurd rfl hdc
        · exact List.mem_append_right _ h1

/-- C6 witness: hard-deleting the single stored Country removes it while
its Visit rows — one already flagged, one not — stay exactly as they
were. -/
theorem deleteCountry_hard_no_cascade_witness :
    ∃ s2, deleteCountry ⟨[⟨1, "Spain", "ES", false⟩], [⟨1, 1, false⟩, ⟨2, 1, true⟩], 2⟩ 1 true =
        .ok (sanitizeCountry ⟨1, "Spain", "ES", false⟩, s2) ∧
      s2.visits = (⟨[⟨1, "Spain", "ES", false⟩], [⟨1, 1, false⟩, ⟨2, 1, true⟩], 2⟩ : Store).visits ∧
      (⟨1, "Spain", "ES", false⟩ : Country) ∉ s2.countries ∧
      ∀ d : Country, d ∈ s2.countries ↔
        (d ∈ (⟨[⟨1, "Spain", "ES", false⟩], [⟨1, 1, false⟩, ⟨2, 1, true⟩], 2⟩ : Store).countries ∧
          d ≠ ⟨1, "Spain", "ES", false⟩) :=
  deleteCountry_hard_no_cascade ⟨[⟨1, "Spain", "ES", false⟩], [⟨1, 1, false⟩, ⟨2, 1, true⟩], 2⟩
    ⟨1, "Spain", "ES", false⟩ (by decide) (by decide)

/-- C10: `deleteCountry` inspects no store error in either mode: on a
well-formed store, when no Country row has the id the store's own
`P2025` error surfaces unchanged (both hard and soft mode, shown equal
to the raw store-primitive error), and any error `deleteCountry` ever
returns is that raw `P2025` — never a `NotFoundError` or
`AlreadyExistsError` of its own. -/
theorem deleteCountry_no_error_inspection (s : Store) (id : Nat) (hard : Bool) (hwf : s.wf) :
    ((∀ c ∈ s.countries, c.id ≠ id) →
      deleteCountry s id hard = .error (.PrismaKnownRequestError "P2025") ∧
      s.countryDelete id = .error (.PrismaKnownRequestError "P2025") ∧
      s.countryUpdate id ⟨none, none, some true⟩ = .error (.PrismaKnownRequestError "P2025")) ∧
    ∀ e, deleteCountry s id hard = .error e → e = .PrismaKnownRequestError "P2025" := by
  constructor
  · intro hall
    have hfind : s.countries.find? (fun c => c.id == id) = none :=
      List.find?_eq_none.mpr (fun d hd => by simp [hall d hd])
    have hdel : s.countryDelete id = .error (.PrismaKnownRequestError "P2025") := by
      simp only [Store.countryDelete, hfind]
    have hupd : s.countryUpdate id ⟨none, none, some true⟩
        = .error (.PrismaKnownRequestError "P2025") := by
      simp only [Store.countryUpdate, hfind]
    refine ⟨?_, hdel, hupd⟩
    cases hard
    · simp only [deleteCountry, hupd]
      rfl
    · simp only [deleteCountry, hdel]
      rfl
  · intro e he
    cases hard
    · cases hfind : s.countries.find? (fun c => c.id == id) with
      | none =>
        have hupd : s.countryUpdate id ⟨none, none, some true⟩
            = .error (.PrismaKnownRequestError "P2025") := by
          simp only [Store.countryUpdate, hfind]
        have hd : deleteCountry s id false = .error (.PrismaKnownRequestError "P2025") := by
          simp only [deleteCountry, hupd]
          rfl
        rw [hd] at he
        simp only [Except.error.injEq] at he
        exact he.symm
      | some c =>
        have hcmem : c ∈ s.countries := List.mem_of_find?_eq_some hfind
        obtain ⟨l1, l2, hsplit, hne⟩ := wf_split s c hwf hcmem
        have hconf : conflictsWith s.countries c.id
            (applyPatch c ⟨none, none, some true⟩).name
            (applyPatch c ⟨none, none, some true⟩).abbreviation = false := by
          rw [hsplit]
          exact conflictsWith_false_of_split c (fun d hd => (hne d hd).2.1)
            (fun d hd => (hne d hd).2.2)
        simp [deleteCountry, Store.countryUpdate, hfind, hconf] at he
    · cases hfind : s.countries.find? (fun c => c.id == id) with
      | none =>
        have hd : deleteCountry s id true = .error (.PrismaKnownRequestError "P2025") := by
          simp only [deleteCountry, Store.countryDelete, hfind]
          rfl
        rw [hd] at he
        simp only [Except.error.injEq] at he
        exact he.symm
      | some c =>
        simp [deleteCountry, Store.countryDelete, hfind] at he

/-- C10 witness: hard-deleting id 3 from a store holding only id 1
surfaces the raw store `P2025` error, identical to the store
primitive's. -/
theorem deleteCountry_no_error_inspection_witness :
    deleteCountry ⟨[⟨1, "Spain", "ES", false⟩], [], 2⟩ 3 true =
      .error (.PrismaKnownRequestError "P2025") ∧
    Store.countryDelete ⟨[⟨1, "Spain", "ES", false⟩], [], 2⟩ 3 =
      .error (.PrismaKnownRequestError "P2025") :=
  ⟨((deleteCountry_no_error_inspection ⟨[⟨1, "Spain", "ES", false⟩], [], 2⟩ 3 true
      (by decide)).1 (by decide)).1,
    ((deleteCountry_no_error_inspection ⟨[⟨1, "Spain", "ES", false⟩], [], 2⟩ 3 true
      (by decide)).1 (by decide)).2.1⟩

/-- C7: `getCountry` succeeds (with the sanitized row) exactly when a
row with the id exists and is not soft-deleted, and returns
`NotFoundError` exactly when every row with that id — if any — is
soft-deleted; in particular a soft-deleted row still physically present
yields `NotFoundError`. -/
theorem getCountry_filters_deleted (s : Store) (id : Nat) :
    ((∃ c, c ∈ s.countries ∧ c.id = id ∧ c.deleted = false ∧
        getCountry s id = .ok (sanitizeCountry c)) ↔
      ∃ c ∈ s.countries, c.id = id ∧ c.deleted = false) ∧
    (getCountry s id = .error (.NotFoundError s!"Country with id #{id} not found") ↔
      ∀ c ∈ s.countries, c.id = id → c.deleted = true) := by
  constructor
  · constructor
    · rintro ⟨c, hc, hid, hdel, -⟩
      exact ⟨c, hc, hid, hdel⟩
    · rintro ⟨c, hc, hid, hdel⟩
      have hsome : (s.countryFindFirstLive id).isSome := by
        rw [Store.countryFindFirstLive, List.find?_isSome]
        exact ⟨c, hc, by simp [hid, hdel]⟩
      obtain ⟨c2, hc2⟩ := Option.isSome_iff_exists.mp hsome
      have hc2f : s.countries.find? (fun d => d.id == id && d.deleted == false) = some c2 := hc2
      have hc2mem : c2 ∈ s.countries := List.mem_of_find?_eq_some hc2f
      have hprops := List.find?_some hc2f
      simp only [Bool.and_eq_true, beq_iff_eq] at hprops
      refine ⟨c2, hc2mem, hprops.1, by simpa using hprops.2, ?_⟩
      simp only [getCountry, Store.countryFindFirstLive, hc2f]
  · constructor
    · intro he c hc hid
      by_contra hdel
      have hdf : c.deleted = false := by
        cases hb : c.deleted with
        | false => rfl
        | true => exact absurd hb hdel
      have hsome : (s.countryFindFirstLive id).isSome := by
        rw [Store.countryFindFirstLive, List.find?_isSome]
        exact ⟨c, hc, by simp [hid, hdf]⟩
      obtain ⟨c2, hc2⟩ := Option.isSome_iff_exists.mp hsome
      have hok : getCountry s id = .ok (sanitizeCountry c2) := by
        simp only [getCountry, hc2]
      rw [hok] at he
      simp at he
    · intro hall
      have hnone : s.countryFindFirstLive id = none := by
        rw [Store.countryFindFirstLive]
        apply List.find?_eq_none.mpr
        intro x hx hb
        rw [Bool.and_eq_true] at hb
        have h1 : x.id = id := by simpa using hb.1
        have h2 : x.deleted = false := by simpa using hb.2
        rw [hall x hx h1] at h2
        exact absurd h2 (by decide)
      simp only [getCountry, hnone]

/-- C9: `getCountries` returns `NotFoundError` exactly when every stored
Country is soft-deleted (the live set is empty), and any successful
result is exactly the sanitized live rows and is never the empty list. -/
theorem getCountries_nonempty_or_error (s : Store) :
    (getCountries s = .error (.NotFoundError "Countries not found") ↔
      ∀ c ∈ s.countries, c.deleted = true) ∧
    ∀ os, getCountries s = .ok os →
      os = (s.countries.filter (fun c => c.deleted == false)).map sanitizeCountry ∧ os ≠ [] := by
  constructor
  · constructor
    · intro he c hc
      by_contra hdel
      have hdf : c.deleted = false := by
        cases hb : c.deleted with
        | false => rfl
        | true => exact absurd hb hdel
      have hmem : c ∈ s.countries.filter (fun c => c.deleted == false) :=
        List.mem_filter.mpr ⟨hc, by simp [hdf]⟩
      have hlen : (s.countries.filter (fun c => c.deleted == false)).length ≠ 0 := by
        intro h0
        rw [List.length_eq_zero] at h0
        rw [h0] at hmem
        exact absurd hmem (List.not_mem_nil c)
      have hbeq : ((s.countries.filter (fun c => c.deleted == false)).length == 0) = false :=
        beq_eq_false_iff_ne.mpr hlen
      have hok : getCountries s
          = .ok ((s.countries.filter (fun c => c.deleted == false)).map sanitizeCountry) := by
        simp only [getCountries, Store.countryFindMany, hbeq]
        rfl
      rw [hok] at he
      simp at he
    · intro hall
      have hfe : s.countries.filter (fun c => c.deleted == false) = [] :=
        List.filter_eq_nil_iff.mpr (fun a ha => by simp [hall a ha])
      simp only [getCountries, Store.countryFindMany, hfe]
      rfl
  · intro os hos
    cases hlen : ((s.countries.filter (fun c => c.deleted == false)).length == 0) with
    | true =>
      have h0 : (s.countries.filter (fun c => c.deleted == false)).length = 0 := by
        simpa using hlen
      have herr : getCountries s = .error (.NotFoundError "Countries not found") := by
        simp only [getCountries, Store.countryFindMany, h0]
        rfl
      rw [herr] at hos
      simp at hos
    | false =>
      have hok : getCountries s
          = .ok ((s.countries.filter (fun c => c.deleted == false)).map sanitizeCountry) := by
        simp only [getCountries, Store.countryFindMany, hlen]
        rfl
      rw [hok] at hos
      simp only [Except.ok.injEq] at hos
      refine ⟨hos.symm, ?_⟩
      intro hnil
      rw [hnil] at hos
      have hfilnil : s.countries.filter (fun c => c.deleted == false) = [] :=
        List.map_eq_nil_iff.mp hos
      rw [hfilnil] at hlen
      simp at hlen

/-- C8: after a successful `createCountry(R)`, creating again with the
same name or the same abbreviation surfaces the store's uniqueness
violation as `AlreadyExistsError`; `upsertCountry(R)` on the same store
does not fail and leaves the store unchanged (it updates the existing
row); and the create catch-block maps exactly the `P2002` store code,
letting every other store-level failure through unmapped. -/
theorem createCountry_uniqueness (s : Store) (R R2 : CreateCountryDto) (hwf : s.wf)
    (o1 : CountryOutputDto) (s1 : Store) (h1 : createCountry s R = .ok (o1, s1)) :
    ((R2.name = R.name ∨ R2.abbreviation = R.abbreviation) →
      createCountry s1 R2 = .error (.AlreadyExistsError
        s!"Country with name \"{R2.name}\" or abbreviation \"{R2.abbreviation}\" already exists")) ∧
    upsertCountry s1 R = .ok (o1, s1) ∧
    (∀ e : ServiceError, (∀ code, e ≠ .PrismaKnownRequestError code) → mapCreateError R2 e = e) ∧
    ∀ code, code ≠ "P2002" →
      mapCreateError R2 (.PrismaKnownRequestError code) = .PrismaKnownRequestError code := by
  cases hany : (s.countries.any (fun c => c.name == R.name || c.abbreviation == R.abbreviation)) with
  | true =>
    simp [createCountry, Store.countryCreate, hany] at h1
  | false =>
    have hnm : ∀ d ∈ s.countries, d.name ≠ R.name := fun d hd => by
      have hx := (List.any_eq_false.mp hany) d hd
      simp at hx
      exact hx.1
    have hab : ∀ d ∈ s.countries, d.abbreviation ≠ R.abbreviation := fun d hd => by
      have hx := (List.any_eq_false.mp hany) d hd
      simp at hx
      exact hx.2
    have hceq : createCountry s R = .ok (sanitizeCountry ⟨s.nextId, R.name, R.abbreviation, false⟩,
        ⟨s.countries ++ [⟨s.nextId, R.name, R.abbreviation, false⟩], s.visits, s.nextId + 1⟩) := by
      simp only [createCountry, Store.countryCreate, hany]
      rfl
    rw [hceq] at h1
    simp only [Except.ok.injEq, Prod.mk.injEq] at h1
    obtain ⟨ho, hs1⟩ := h1
    have hmem : (⟨s.nextId, R.name, R.abbreviation, false⟩ : Country) ∈ s1.countries := by
      rw [← hs1]
      exact List.mem_append_right _ (List.mem_cons_self _ _)
    refine ⟨?_, ?_, ?_, ?_⟩
    · intro hR2
      have hany2 : (s1.countries.any
          (fun c => c.name == R2.name || c.abbreviation == R2.abbreviation)) = true := by
        rw [List.any_eq_true]
        refine ⟨_, hmem, ?_⟩
        rcases hR2 with h | h
        · simp [h]
        · simp [h]
      simp only [createCountry, Store.countryCreate, hany2]
      rfl
    · have hwf1 : s1.wf := by
        rw [← hs1]
        exact wf_append hwf hnm hab
      have := upsertCountry_self hwf1 hmem rfl rfl
      rw [ho] at this
      exact this
    · intro e he
      cases e with
      | NotFoundError m => rfl
      | AlreadyExistsError m => rfl
      | PrismaKnownRequestError code => exact absurd rfl (he code)
    · intro code hcode
      simp only [mapCreateError]
      rw [beq_eq_false_iff_ne.mpr hcode]
      rfl

/-- C8 witness: the second identical `create` fails with
`AlreadyExistsError` while `upsert` of the same input succeeds without
change, and the create catch lets a non-P2002 code through. -/
theorem createCountry_uniqueness_witness :
    createCountry ⟨[⟨0, "Spain", "ES", false⟩], [], 1⟩ ⟨"Spain", "ES"⟩ =
      .error (.AlreadyExistsError
        "Country with name \"Spain\" or abbreviation \"ES\" already exists") ∧
    upsertCountry ⟨[⟨0, "Spain", "ES", false⟩], [], 1⟩ ⟨"Spain", "ES"⟩ =
      .ok (⟨0, "Spain", "ES"⟩, ⟨[⟨0, "Spain", "ES", false⟩], [], 1⟩) ∧
    mapCreateError ⟨"Spain", "ES"⟩ (.PrismaKnownRequestError "P2025") =
      .PrismaKnownRequestError "P2025" := by
  have h := createCountry_uniqueness ⟨[], [], 0⟩ ⟨"Spain", "ES"⟩ ⟨"Spain", "ES"⟩ (by decide)
    ⟨0, "Spain", "ES"⟩ ⟨[⟨0, "Spain", "ES", false⟩], [], 1⟩ rfl
  exact ⟨h.1 (Or.inl rfl), h.2.1, h.2.2.2 "P2025" (by decide)⟩

/-- The concrete store for the `updateCountry` computations: a single
Country with id 1, soft-deleted. -/
def oneCountryStore : Store := ⟨[⟨1, "Spain", "ES", true⟩], [], 2⟩

/-- C1: `updateCountry` indeed applies the partial update with no filter
on `deleted` (third conjunct: a soft-deleted row is updated and stays
soft-deleted), but on a missing id it does NOT fail with
`NotFoundError`: the store raises the Prisma record-not-found code
`P2025`, the catch-block tests `P2010` (the raw-query-failure code), so
the raw store error propagates unmapped (first and second conjuncts). -/
theorem updateCountry_wrong_not_found_code :
    updateCountry oneCountryStore 7 ⟨some "France", none⟩ =
      .error (.PrismaKnownRequestError "P2025") ∧
    (∀ m, (ServiceError.PrismaKnownRequestError "P2025") ≠ .NotFoundError m) ∧
    updateCountry oneCountryStore 1 ⟨some "Espana", none⟩ =
      .ok (⟨1, "Espana", "ES"⟩, ⟨[⟨1, "Espana", "ES", true⟩], [], 2⟩) :=
  ⟨rfl, fun _ h => ServiceError.noConfusion h, rfl⟩
